import Mathlib

/-!
Verification development for the PySHAC engine (Sequential Halving And
Classification, titu1994/pyshac).  The repository snapshot available here
contains the documentation, the mkdocs configuration and a recorded example
notebook; the Python implementation itself is not present.  The engine is
therefore shallowly embedded from the specification (and from the recorded
notebook outputs where they pin down behaviour), and the stated properties
are settled against that embedding.

Real numbers of the specification are modelled by exact fractions.  A custom
fraction type with a carried positivity invariant and no gcd normalisation is
used so that every operation reduces inside the kernel, which lets concrete
runs of the engine be checked by decide.
-/

/-- Exact fraction num / den with a positive denominator, modelling the real
scalars of the specification.  No normalisation is performed, so all
arithmetic is kernel-reducible. -/
structure Q where
  num : Int
  den : Int
  dpos : 0 < den

instance : DecidableEq Q := fun a b =>
  decidable_of_iff (a.num = b.num ∧ a.den = b.den)
    (by constructor
        · intro ⟨h1, h2⟩; cases a; cases b; simp_all
        · intro h; cases h; exact ⟨rfl, rfl⟩)

/-- Embed an integer as a fraction. -/
def Q.ofInt (i : Int) : Q := ⟨i, 1, by omega⟩

/-- Embed a natural number as a fraction. -/
def Q.ofNat (n : Nat) : Q := ⟨(n : Int), 1, by omega⟩

def Q.zero : Q := Q.ofInt 0

def Q.add (a b : Q) : Q :=
  ⟨a.num * b.den + b.num * a.den, a.den * b.den, mul_pos a.dpos b.dpos⟩

def Q.sub (a b : Q) : Q :=
  ⟨a.num * b.den - b.num * a.den, a.den * b.den, mul_pos a.dpos b.dpos⟩

def Q.mul (a b : Q) : Q :=
  ⟨a.num * b.num, a.den * b.den, mul_pos a.dpos b.dpos⟩

/-- Order on fractions by cross multiplication (denominators are positive). -/
def Q.le (a b : Q) : Prop := a.num * b.den ≤ b.num * a.den

/-- Strict order on fractions by cross multiplication. -/
def Q.lt (a b : Q) : Prop := a.num * b.den < b.num * a.den

/-- Value equivalence: two fractions denote the same real number. -/
def Q.equiv (a b : Q) : Prop := a.num * b.den = b.num * a.den

/-- Value distinctness: the two fractions denote different real numbers. -/
def Q.vne (a b : Q) : Prop := Q.lt a b ∨ Q.lt b a

instance Q.decLe : ∀ a b : Q, Decidable (Q.le a b) := fun _ _ =>
  inferInstanceAs (Decidable (_ ≤ _))

instance Q.decLt : ∀ a b : Q, Decidable (Q.lt a b) := fun _ _ =>
  inferInstanceAs (Decidable (_ < _))

instance Q.decEquiv : ∀ a b : Q, Decidable (Q.equiv a b) := fun _ _ =>
  inferInstanceAs (Decidable (_ = _))

instance Q.decVne : ∀ a b : Q, Decidable (Q.vne a b) := fun _ _ =>
  inferInstanceAs (Decidable (_ ∨ _))

/-- Floor of a fraction as an integer. -/
def Q.floor (a : Q) : Int := Int.fdiv a.num a.den

/-- Round a fraction to the nearest integer (half away from floor). -/
def Q.round (a : Q) : Int := Int.fdiv (2 * a.num + a.den) (2 * a.den)

/-- Modelled from the spec: a hyper parameter value is an integer, a real, or
a string (Discrete lists hold values of one of these kinds). -/
inductive PValue where
  | int : Int → PValue
  | real : Q → PValue
  | str : String → PValue
deriving DecidableEq

/-- Modelled from the spec: a joint sample is an ordered record, one value per
parameter in declaration order. -/
abbrev Sample := List PValue

/-- Modelled from the spec: the tagged Parameter variants Discrete,
Uniform-Continuous and Normal-Continuous (the source classes
DiscreteHyperParameter, UniformContinuousHyperParameter and
NormalContinuousHyperParameter). -/
inductive HyperParameter where
  | discrete (name : String) (values : List PValue)
  | uniformContinuous (name : String) (low high : Q)
  | normalContinuous (name : String) (mean std : Q)
deriving DecidableEq

/-- Modelled from the spec: an ordered sequence of Parameters. -/
abbrev ParameterSpace := List HyperParameter

def HyperParameter.name : HyperParameter → String
  | .discrete n _ => n
  | .uniformContinuous n _ _ => n
  | .normalContinuous n _ _ => n

/-- Modelled from the spec: a seeded pseudo-random stream, realised as a
linear congruential generator over natural numbers. -/
def lcg (s : Nat) : Nat := (s * 1103515245 + 12345) % 2147483648

/-- Modelled from the spec: one draw in the half-open unit interval, taken
from the low bits of the stream state. -/
def rand01 (s : Nat) : Q := ⟨(s % 1024 : Nat), 1024, by omega⟩

/-- Modelled from the spec: per-parameter sampling.  A Discrete parameter is a
uniform choice over its value list; Uniform-Continuous is uniform on
low + (high - low) * u with u in the unit interval; Normal-Continuous is a
deterministic seeded model of a normal draw centred at the mean (the claims
under verification do not constrain its distribution shape). -/
def HyperParameter.sample : HyperParameter → Nat → PValue × Nat
  | .discrete _ values, s =>
      (values.getD (s % values.length) (.int 0), lcg s)
  | .uniformContinuous _ low high, s =>
      (.real (low.add ((high.sub low).mul (rand01 s))), lcg s)
  | .normalContinuous _ mean std, s =>
      (.real (mean.add (std.mul ((rand01 s).sub (rand01 (lcg s))))), lcg (lcg s))

/-- Modelled from the spec: joint sampling, one value per parameter
independently, threading the stream state in declaration order. -/
def sampleSpace : ParameterSpace → Nat → Sample × Nat
  | [], s => ([], s)
  | p :: ps, s =>
      let r := p.sample s
      let rest := sampleSpace ps r.2
      (r.1 :: rest.1, rest.2)

/-- Index of the first occurrence of a value in a Discrete value list. -/
def idxOf (v : PValue) : List PValue → Nat
  | [] => 0
  | w :: ws => if w = v then 0 else idxOf v ws + 1

/-- Membership test for a Discrete value list. -/
def memVal (v : PValue) : List PValue → Bool
  | [] => false
  | w :: ws => if w = v then true else memVal v ws

/-- Numeric reading of a value (strings encode through their ordinal index
and never reach this function on conforming samples). -/
def numValue : PValue → Q
  | .int i => Q.ofInt i
  | .real r => r
  | .str _ => Q.zero

/-- Modelled from the spec: encoding of one value, the identity for numeric
parameters and the 0-based ordinal index in the declared list for Discrete
parameters. -/
def HyperParameter.encode : HyperParameter → PValue → Q
  | .discrete _ values, v => Q.ofNat (idxOf v values)
  | .uniformContinuous _ _ _, v => numValue v
  | .normalContinuous _ _ _, v => numValue v

/-- Clamp an integer index into the range 0 .. hi. -/
def natClamp (i : Int) (hi : Nat) : Nat := if i ≤ 0 then 0 else min i.toNat hi

/-- Modelled from the spec: decoding of one encoded real, the inverse of
encode on numeric dimensions; a Discrete dimension rounds the real to the
nearest valid ordinal index clamped to the declared range. -/
def HyperParameter.decode : HyperParameter → Q → PValue
  | .discrete _ values, r => values.getD (natClamp (Q.round r) (values.length - 1)) (.int 0)
  | .uniformContinuous _ _ _, r => .real r
  | .normalContinuous _ _ _, r => .real r

/-- Modelled from the spec: encode a joint sample into the vector of reals
used by classifiers, dimension by dimension in declaration order. -/
def encodeSample (ps : ParameterSpace) (s : Sample) : List Q :=
  List.zipWith HyperParameter.encode ps s

/-- Modelled from the spec: decode an encoded vector back into a joint
sample, dimension by dimension in declaration order. -/
def decodeVector (ps : ParameterSpace) (v : List Q) : Sample :=
  List.zipWith HyperParameter.decode ps v

/-- Conformance of one value to one parameter: a Discrete dimension holds one
of the declared values, a continuous dimension holds a real. -/
def HyperParameter.admits : HyperParameter → PValue → Bool
  | .discrete _ values, v => memVal v values
  | .uniformContinuous _ _ _, v => match v with | .real _ => true | _ => false
  | .normalContinuous _ _ _, v => match v with | .real _ => true | _ => false

/-- Conformance of a joint sample to the Parameter Space schema. -/
def conforms : ParameterSpace → Sample → Bool
  | [], [] => true
  | p :: ps, v :: vs => p.admits v && conforms ps vs
  | _, _ => false

/-- Modelled from the spec: the Objective directive, minimise or maximise. -/
inductive Objective where
  | minimize : Objective
  | maximize : Objective
deriving DecidableEq

/-- Modelled from the spec: the Dataset, an ordered append-only list of
(sample, score) records. -/
structure Dataset where
  rows : List (Sample × Q)
deriving DecidableEq

def Dataset.size (d : Dataset) : Nat := d.rows.length

def Dataset.scores (d : Dataset) : List Q := d.rows.map Prod.snd

/-- Ascending sort of a score list. -/
def sortScores (l : List Q) : List Q := l.insertionSort Q.le

/-- Modelled from the spec: the p-quantile of a score list, by linear
interpolation between the order statistics at floor and ceiling of
p * (N - 1), as in the numpy percentile used by the source. -/
def interpolate (l : List Q) (p : Q) : Q :=
  match l with
  | [] => Q.zero
  | _ :: _ =>
    let h := p.mul (Q.ofNat (l.length - 1))
    let i := (Q.floor h).toNat
    let lo := l.getD i Q.zero
    let hi := l.getD (i + 1) lo
    lo.add ((h.sub (Q.ofInt (Q.floor h))).mul (hi.sub lo))

/-- Modelled from the spec: threshold(p, objective).  For objective minimize
it is the p-quantile of the stored scores; for maximize the (1-p)-quantile
(at p = one half the two coincide). -/
def Dataset.threshold (d : Dataset) (p : Q) (obj : Objective) : Q :=
  match obj with
  | .minimize => interpolate (sortScores d.scores) p
  | .maximize => interpolate (sortScores d.scores) ((Q.ofInt 1).sub p)

/-- Modelled from the spec: acceptance of one score against a threshold,
score at most the threshold for minimize, at least it for maximize. -/
def acceptScore (obj : Objective) (t s : Q) : Bool :=
  match obj with
  | .minimize => decide (Q.le s t)
  | .maximize => decide (Q.le t s)

/-- Modelled from the spec: labels(threshold, objective), one boolean per
stored record, true meaning accepted. -/
def Dataset.labels (d : Dataset) (t : Q) (obj : Objective) : List Bool :=
  d.scores.map (acceptScore obj t)

/-- One half, the acceptance fraction used for the epoch threshold. -/
def qhalf : Q := ⟨1, 2, by omega⟩

/-- Modelled from the spec: the Classifier, an opaque deterministic binary
model over encoded vectors.  The reference model here is a nearest-centroid
rule: it stores the centroid of the accepted and of the rejected training
vectors and accepts a vector lying no farther from the accepted centroid. -/
structure Classifier where
  mu1 : List Q
  mu0 : List Q
deriving DecidableEq

def addVec : List Q → List Q → List Q
  | [], _ => []
  | _, [] => []
  | a :: as_, b :: bs => a.add b :: addVec as_ bs

def zeroVec (d : Nat) : List Q := List.replicate d Q.zero

def sumVecs (d : Nat) : List (List Q) → List Q
  | [] => zeroVec d
  | v :: vs => addVec v (sumVecs d vs)

/-- Scale a vector by 1 / n (mean denominator); n = 0 acts like n = 1 so the
fraction stays well formed. -/
def scaleInv (n : Nat) (v : List Q) : List Q :=
  v.map (fun q => Q.mul ⟨1, ((max 1 n : Nat) : Int), by omega⟩ q)

/-- Coordinate-wise mean of a list of vectors of dimension d. -/
def meanVec (d : Nat) (vs : List (List Q)) : List Q :=
  match vs with
  | [] => zeroVec d
  | _ :: _ => scaleInv vs.length (sumVecs d vs)

/-- Squared euclidean distance of two encoded vectors. -/
def dist2 : List Q → List Q → Q
  | [], _ => Q.zero
  | _, [] => Q.zero
  | a :: as_, b :: bs => ((a.sub b).mul (a.sub b)).add (dist2 as_ bs)

/-- Modelled from the spec: classifier prediction, accept when the vector is
no farther from the accepted centroid than from the rejected one. -/
def Classifier.predict (c : Classifier) (v : List Q) : Bool :=
  decide (Q.le (dist2 v c.mu1) (dist2 v c.mu0))

/-- Modelled from the spec: fit a classifier on a labelled batch of encoded
vectors, deterministic given its input. -/
def fitClassifier (d : Nat) (X : List (List Q)) (y : List Bool) : Classifier :=
  let pos := ((List.zip X y).filter (fun p => p.2)).map Prod.fst
  let neg := ((List.zip X y).filter (fun p => !p.2)).map Prod.fst
  ⟨meanVec d pos, meanVec d neg⟩

/-- Modelled from the spec: the cascade acts as a conjunctive filter, every
classifier in order must accept. -/
def cascadeAccepts (cascade : List Classifier) (v : List Q) : Bool :=
  match cascade with
  | [] => true
  | c :: rest => c.predict v && cascadeAccepts rest v

/-- Modelled from the spec: one rejection-sampling attempt loop for one slot,
bounded by the per-slot generation budget (hard cap).  Draw a raw sample,
accept when every classifier in the cascade accepts its encoding, otherwise
loop; exhausting the cap surfaces the GeneratorExhausted condition (none). -/
def genAttempt (ps : ParameterSpace) (cascade : List Classifier) :
    Nat → Nat → Option Sample
  | 0, _ => none
  | fuel + 1, rng =>
    let r := sampleSpace ps rng
    if cascadeAccepts cascade (encodeSample ps r.1) then some r.1
    else genAttempt ps cascade fuel r.2

/-- Number of raw draws the bounded rejection loop performs. -/
def genAttemptCount (ps : ParameterSpace) (cascade : List Classifier) :
    Nat → Nat → Nat
  | 0, _ => 0
  | fuel + 1, rng =>
    let r := sampleSpace ps rng
    if cascadeAccepts cascade (encodeSample ps r.1) then 1
    else genAttemptCount ps cascade fuel r.2 + 1

/-- Modelled from the spec: the Engine configuration. -/
structure Config where
  totalBudget : Nat
  numBatches : Nat
  objective : Objective
  maxClassifiers : Nat
  skipCV : Bool
  earlyStop : Bool
  relaxChecks : Bool
  seed : Nat
  genCap : Nat
deriving DecidableEq

/-- Modelled from the spec: num_epochs = total_budget / num_batches (floor). -/
def numEpochs (cfg : Config) : Nat := cfg.totalBudget / cfg.numBatches

/-- Modelled from the spec and the recorded constructor output of the example
notebook (10 epochs to fit 9 classifiers, restore finds 9): the number of
classifiers a full run commits to the cascade is capped by both
num_epochs - 1 and max_classifiers. -/
def totalClassifiers (cfg : Config) : Nat :=
  min (numEpochs cfg - 1) cfg.maxClassifiers

/-- Modelled from the spec: the per-worker seed derives from
(engine_seed, epoch, worker_id, slot_index). -/
def derivedSeed (seed epoch worker slot : Nat) : Nat :=
  lcg (lcg (lcg (lcg (seed + 1) + epoch) + worker) + slot)

/-- Modelled from the spec: the evaluator pool has one worker per batch slot
(hardware parallelism is modelled as at least num_batches); the worker that
owns a slot is the slot index modulo the pool size. -/
def workerOf (cfg : Config) (slot : Nat) : Nat := slot % cfg.numBatches

/-- Modelled from the spec: the generation task of one slot, running the
bounded rejection loop on the stream seeded from
(engine_seed, epoch, worker_id, slot_index). -/
def slotResult (cfg : Config) (ps : ParameterSpace) (cascade : List Classifier)
    (epoch slot : Nat) : Option Sample :=
  genAttempt ps cascade cfg.genCap
    (derivedSeed cfg.seed epoch (workerOf cfg slot) slot)

/-- Modelled from the spec: workers complete their slots in an arbitrary
completion order; each completed slot contributes its (slot, sample) record,
an exhausted slot contributes nothing. -/
def runSchedule (cfg : Config) (ps : ParameterSpace) (cascade : List Classifier)
    (epoch : Nat) : List Nat → List (Nat × Sample)
  | [] => []
  | i :: rest =>
    match slotResult cfg ps cascade epoch i with
    | some s => (i, s) :: runSchedule cfg ps cascade epoch rest
    | none => runSchedule cfg ps cascade epoch rest

/-- First record stored for a slot index, if any. -/
def lookupSlot (res : List (Nat × Sample)) (i : Nat) : Option Sample :=
  match res with
  | [] => none
  | (j, x) :: rest => if j = i then some x else lookupSlot rest i

/-- Modelled from the spec: the final batch is deterministically ordered by
slot, not by completion time; missing any slot fails the batch. -/
def collectSlots (res : List (Nat × Sample)) : Nat → Option (List Sample)
  | 0 => some []
  | n + 1 =>
    match collectSlots res n, lookupSlot res n with
    | some l, some x => some (l ++ [x])
    | _, _ => none

/-- Modelled from the spec: produce the epoch batch of num_batches accepted
samples under a given completion order; none when a slot exhausted its cap. -/
def generateBatchSched (cfg : Config) (ps : ParameterSpace)
    (cascade : List Classifier) (epoch : Nat) (order : List Nat) :
    Option (List Sample) :=
  collectSlots (runSchedule cfg ps cascade epoch order) cfg.numBatches

/-- In-order completion schedule. -/
def canonicalOrder (cfg : Config) : List Nat := List.range cfg.numBatches

/-- Modelled from the spec: the evaluation function receives
(worker_id, sample) and returns a real score. -/
abbrev EvalFn := Nat → Sample → Q

/-- Modelled from the spec: parallel evaluation of the batch; the resulting
score list follows the deterministic batch order, worker ids run over the
pool. -/
def evalBatch (f : EvalFn) : Nat → List Sample → List Q
  | _, [] => []
  | w, s :: rest => f w s :: evalBatch f (w + 1) rest

/-- Modelled from the spec: the Engine State of one engine, the Parameter
Space and configuration being fixed and immutable outside it. -/
structure EngineState where
  dataset : Dataset
  cascade : List Classifier
  epochsDone : Nat
  halted : Bool
deriving DecidableEq

/-- Fresh engine state: empty dataset, empty cascade. -/
def initState : EngineState := ⟨⟨[]⟩, [], 0, false⟩

/-- Modelled from the spec: the per-epoch training decision.  Scores of the
most recent batch only are thresholded at p = one half; the batch needs at
least 2 samples of either label; without skip_cv_checks every stratified
5-fold must see both classes (each class needs at least 5 members); the
candidate classifier is trained on the labelled encoded batch; unless
relax_checks, the updated cascade must still select a non-empty subset of the
accepted samples.  Returns the decision and the candidate. -/
def epochTrainDecision (cfg : Config) (ps : ParameterSpace) (f : EvalFn)
    (batch : List Sample) (cascade : List Classifier) : Bool × Classifier :=
  let scores := evalBatch f 0 batch
  let bds : Dataset := ⟨List.zip batch scores⟩
  let t := bds.threshold qhalf cfg.objective
  let ys := bds.labels t cfg.objective
  let X := batch.map (encodeSample ps)
  let nPos := ys.countP id
  let nNeg := ys.countP (fun b => !b)
  let canTrain := decide (2 ≤ nPos) && decide (2 ≤ nNeg)
  let cvOk := cfg.skipCV || (decide (5 ≤ nPos) && decide (5 ≤ nNeg))
  let cand := fitClassifier ps.length X ys
  let accSubset := ((List.zip X ys).filter (fun p => p.2)).map Prod.fst
  let gateOk := cfg.relaxChecks ||
    accSubset.any (fun v => cascadeAccepts (cascade ++ [cand]) v)
  (canTrain && cvOk && gateOk, cand)

/-- Modelled from the spec: one epoch under a given completion order.
Generate the batch (a generator exhaustion halts the epoch, discarding it);
evaluate; append the (sample, score) records; train and append the candidate
classifier when the decision allows and the cascade cap leaves room; a failed
decision halts further training only under early_stop. -/
def epochStepSched (cfg : Config) (ps : ParameterSpace) (f : EvalFn)
    (order : List Nat) (st : EngineState) : EngineState :=
  match generateBatchSched cfg ps st.cascade st.epochsDone order with
  | none => { st with halted := true }
  | some batch =>
    let scores := evalBatch f 0 batch
    let dec := epochTrainDecision cfg ps f batch st.cascade
    let room := decide (st.cascade.length < totalClassifiers cfg)
    let rows := st.dataset.rows ++ List.zip batch scores
    if dec.1 && room then
      ⟨⟨rows⟩, st.cascade ++ [dec.2], st.epochsDone + 1, false⟩
    else
      ⟨⟨rows⟩, st.cascade, st.epochsDone + 1, cfg.earlyStop && !dec.1 && room⟩

/-- Modelled from the spec: the training loop, one epoch per unit of fuel,
stopping early only when halted. -/
def fitLoopSched (cfg : Config) (ps : ParameterSpace) (f : EvalFn)
    (scheds : Nat → List Nat) : Nat → EngineState → EngineState
  | 0, st => st
  | n + 1, st =>
    if st.halted then st
    else fitLoopSched cfg ps f scheds n (epochStepSched cfg ps f (scheds st.epochsDone) st)

/-- Modelled from the spec: fit under per-epoch completion orders, training
until the budget is exhausted or halted. -/
def fitSched (cfg : Config) (ps : ParameterSpace) (f : EvalFn)
    (scheds : Nat → List Nat) : EngineState :=
  fitLoopSched cfg ps f scheds (numEpochs cfg) initState

/-- Modelled from the spec: fit with the canonical in-order schedule. -/
def fit (cfg : Config) (ps : ParameterSpace) (f : EvalFn) : EngineState :=
  fitSched cfg ps f (fun _ => canonicalOrder cfg)

/-- Modelled from the spec: predict(n) draws n samples through the Generator
using the full cascade, optionally truncated to max_classifiers_for_predict;
no evaluation and no mutation of state.  Slots that exhaust the cap surface
as none.  The per-slot streams are seeded from the persisted engine state. -/
def predictSamples (cfg : Config) (ps : ParameterSpace) (st : EngineState)
    (n : Nat) (maxClsForPredict : Option Nat) : List (Option Sample) :=
  let casc :=
    match maxClsForPredict with
    | none => st.cascade
    | some m => st.cascade.take m
  (List.range n).map
    (fun slot =>
      genAttempt ps casc cfg.genCap
        (derivedSeed cfg.seed st.epochsDone (workerOf cfg slot) slot))

/-- Render an integer fraction for the tabular record. -/
def renderQ (q : Q) : String := toString q.num ++ "/" ++ toString q.den

def renderPValue : PValue → String
  | .int i => toString i
  | .real r => renderQ r
  | .str s => s

def renderCells : List String → String
  | [] => ""
  | [c] => c
  | c :: rest => c ++ "," ++ renderCells rest

def renderRow (r : Sample × Q) : String :=
  renderCells (r.1.map renderPValue ++ [renderQ r.2]) ++ "\n"

def renderRows : List (Sample × Q) → String
  | [] => ""
  | r :: rest => renderRow r ++ renderRows rest

/-- Modelled from the spec: the dataset.csv view, a header row of parameter
names plus score, then one row per evaluated sample in append order. -/
def Dataset.toCSV (ps : ParameterSpace) (d : Dataset) : String :=
  renderCells (ps.map HyperParameter.name ++ ["score"]) ++ "\n" ++ renderRows d.rows

/-- Modelled from the spec: serialized form of one classifier
(classifiers/cls_i.bin). -/
def Classifier.serialize (c : Classifier) : List Q × List Q := (c.mu1, c.mu0)

/-- Modelled from the spec: deserialization of one classifier. -/
def Classifier.deserialize (p : List Q × List Q) : Classifier := ⟨p.1, p.2⟩

/-- Modelled from the spec: the on-disk checkpoint directory, holding the
tabular dataset records, the parameter-space schema, the serialized cascade
in order, and the meta record with the epoch counter and configuration. -/
structure Checkpoint where
  csvRows : List (Sample × Q)
  schema : ParameterSpace
  classifierFiles : List (List Q × List Q)
  metaEpoch : Nat
  metaConfig : Config

/-- Modelled from the spec: save writes the dataset view, the schema, every
cascade member in order, and the meta record.  Transient control state (the
halted flag) is not persisted. -/
def save (cfg : Config) (ps : ParameterSpace) (st : EngineState) : Checkpoint :=
  ⟨st.dataset.rows, ps, st.cascade.map Classifier.serialize, st.epochsDone, cfg⟩

/-- Modelled from the spec: restore rebuilds an engine from a checkpoint:
the dataset from the tabular records, the cascade from the classifier files
in index order, the epoch counter from the meta record. -/
def restore (ck : Checkpoint) : EngineState :=
  ⟨⟨ck.csvRows⟩, ck.classifierFiles.map Classifier.deserialize, ck.metaEpoch, false⟩

/-- Modelled from the spec: user-facing operations interleaved on one
engine: fit one epoch, or predict n samples. -/
inductive EngineOp where
  | fitEpoch : EngineOp
  | predictOp (n : Nat) (mc : Option Nat) : EngineOp

/-- Whether an operation is a fit epoch. -/
def EngineOp.isFit : EngineOp → Bool
  | .fitEpoch => true
  | .predictOp _ _ => false

/-- Modelled from the spec: run a list of operations on an engine, returning
the final state and the outputs of the predict calls in order.  Prediction
performs no evaluation and no mutation of state. -/
def runOps (cfg : Config) (ps : ParameterSpace) (f : EvalFn) :
    List EngineOp → EngineState → EngineState × List (List (Option Sample))
  | [], st => (st, [])
  | .fitEpoch :: rest, st =>
    runOps cfg ps f rest
      (if st.halted then st else epochStepSched cfg ps f (canonicalOrder cfg) st)
  | .predictOp n mc :: rest, st =>
    let out := predictSamples cfg ps st n mc
    let r := runOps cfg ps f rest st
    (r.1, out :: r.2)

/-- Whether one epoch starting from a given state would complete and train an
addable classifier (generation succeeds and the training decision is
positive). -/
def epochTrainable (cfg : Config) (ps : ParameterSpace) (f : EvalFn)
    (st : EngineState) : Bool :=
  match generateBatchSched cfg ps st.cascade st.epochsDone (canonicalOrder cfg) with
  | none => false
  | some batch => (epochTrainDecision cfg ps f batch st.cascade).1

/-- Whether every epoch of the canonical run completes and trains an addable
classifier. -/
def allEpochsTrainable (cfg : Config) (ps : ParameterSpace) (f : EvalFn) : Bool :=
  (List.range (numEpochs cfg)).all
    (fun k => epochTrainable cfg ps f
      (fitLoopSched cfg ps f (fun _ => canonicalOrder cfg) k initState))

/-- Concrete search space for checks: one Discrete parameter over four
integer values. -/
def exSpace : ParameterSpace := [.discrete "p" [.int 0, .int 1, .int 2, .int 3]]

/-- Concrete evaluation function: the loss is the ordinal value itself. -/
def exEval : EvalFn := fun _ s =>
  match s with
  | [.int i] => Q.ofInt i
  | _ => Q.zero

/-- Concrete constant evaluation function, producing a single-class batch. -/
def exConstEval : EvalFn := fun _ _ => Q.ofInt 7

/-- Concrete configuration: budget 8, batches of 4, minimise, seed 0. -/
def exConfig : Config :=
  ⟨8, 4, Objective.minimize, 5, true, false, false, 0, 16⟩

/-- Concrete configuration with a zero per-slot generation cap, forcing the
GeneratorExhausted condition. -/
def exConfigExhaust : Config :=
  ⟨8, 4, Objective.minimize, 5, true, false, false, 0, 0⟩

/-- Concrete dataset with three records and pairwise distinct scores. -/
def exDataset : Dataset :=
  ⟨[([PValue.int 0], Q.ofInt 1), ([PValue.int 1], Q.ofInt 3),
    ([PValue.int 2], Q.ofInt 2)]⟩

/-- Well-formedness of a space: every Discrete parameter declares at least
one value. -/
def wellFormed : ParameterSpace → Bool
  | [] => true
  | p :: ps =>
    (match p with
     | .discrete _ values => !values.isEmpty
     | _ => true) && wellFormed ps

theorem Q.ext_iff {a b : Q} : a = b ↔ a.num = b.num ∧ a.den = b.den := by
  constructor
  · intro h; cases h; exact ⟨rfl, rfl⟩
  · intro ⟨h1, h2⟩; cases a; cases b; simp_all

theorem Q.le_refl (a : Q) : Q.le a a := le_rfl

theorem Q.le_total (a b : Q) : Q.le a b ∨ Q.le b a := Int.le_total _ _

theorem Q.not_le_iff_lt {a b : Q} : ¬ Q.le a b ↔ Q.lt b a := by
  unfold Q.le Q.lt; omega

theorem Q.lt_irrefl (a : Q) : ¬ Q.lt a a := by unfold Q.lt; omega

theorem Q.lt_imp_le {a b : Q} (h : Q.lt a b) : Q.le a b := Int.le_of_lt h

theorem Q.le_trans {a b c : Q} (h1 : Q.le a b) (h2 : Q.le b c) : Q.le a c := by
  unfold Q.le at *
  have hb := b.dpos
  have h1c : a.num * b.den * c.den ≤ b.num * a.den * c.den :=
    mul_le_mul_of_nonneg_right h1 (Int.le_of_lt c.dpos)
  have h2a : b.num * c.den * a.den ≤ c.num * b.den * a.den :=
    mul_le_mul_of_nonneg_right h2 (Int.le_of_lt a.dpos)
  have : a.num * c.den * b.den ≤ c.num * a.den * b.den := by nlinarith
  exact le_of_mul_le_mul_right this hb

theorem Q.lt_of_lt_of_le {a b c : Q} (h1 : Q.lt a b) (h2 : Q.le b c) : Q.lt a c := by
  unfold Q.le Q.lt at *
  have hb := b.dpos
  have h1c : a.num * b.den * c.den < b.num * a.den * c.den :=
    mul_lt_mul_of_pos_right h1 c.dpos
  have h2a : b.num * c.den * a.den ≤ c.num * b.den * a.den :=
    mul_le_mul_of_nonneg_right h2 (Int.le_of_lt a.dpos)
  have : a.num * c.den * b.den < c.num * a.den * b.den := by nlinarith
  exact lt_of_mul_lt_mul_right this (Int.le_of_lt hb)

theorem Q.lt_of_le_of_lt {a b c : Q} (h1 : Q.le a b) (h2 : Q.lt b c) : Q.lt a c := by
  unfold Q.le Q.lt at *
  have hb := b.dpos
  have h1c : a.num * b.den * c.den ≤ b.num * a.den * c.den :=
    mul_le_mul_of_nonneg_right h1 (Int.le_of_lt c.dpos)
  have h2a : b.num * c.den * a.den < c.num * b.den * a.den :=
    mul_lt_mul_of_pos_right h2 a.dpos
  have : a.num * c.den * b.den < c.num * a.den * b.den := by nlinarith
  exact lt_of_mul_lt_mul_right this (Int.le_of_lt hb)

theorem Q.le_congr_right {t u s : Q} (h : Q.equiv t u) :
    Q.le s t ↔ Q.le s u := by
  unfold Q.equiv at h
  unfold Q.le
  have ht := t.dpos
  have hu := u.dpos
  constructor
  · intro hle
    have h1 : s.num * t.den * u.den ≤ t.num * s.den * u.den :=
      mul_le_mul_of_nonneg_right hle (Int.le_of_lt hu)
    have e : t.num * s.den * u.den = u.num * s.den * t.den := by
      linear_combination s.den * h
    have key : s.num * u.den * t.den ≤ u.num * s.den * t.den := by
      calc s.num * u.den * t.den = s.num * t.den * u.den := by ring
        _ ≤ t.num * s.den * u.den := h1
        _ = u.num * s.den * t.den := e
    exact le_of_mul_le_mul_right key ht
  · intro hle
    have h1 : s.num * u.den * t.den ≤ u.num * s.den * t.den :=
      mul_le_mul_of_nonneg_right hle (Int.le_of_lt ht)
    have e : u.num * s.den * t.den = t.num * s.den * u.den := by
      linear_combination (-(s.den : Int)) * h
    have key : s.num * t.den * u.den ≤ t.num * s.den * u.den := by
      calc s.num * t.den * u.den = s.num * u.den * t.den := by ring
        _ ≤ u.num * s.den * t.den := h1
        _ = t.num * s.den * u.den := e
    exact le_of_mul_le_mul_right key hu

theorem Q.le_congr_left {t u s : Q} (h : Q.equiv t u) :
    Q.le t s ↔ Q.le u s := by
  unfold Q.equiv at h
  unfold Q.le
  have ht := t.dpos
  have hu := u.dpos
  constructor
  · intro hle
    have h1 : t.num * s.den * u.den ≤ s.num * t.den * u.den :=
      mul_le_mul_of_nonneg_right hle (Int.le_of_lt hu)
    have e : u.num * s.den * t.den = t.num * s.den * u.den := by
      linear_combination (-(s.den : Int)) * h
    have key : u.num * s.den * t.den ≤ s.num * u.den * t.den := by
      calc u.num * s.den * t.den = t.num * s.den * u.den := e
        _ ≤ s.num * t.den * u.den := h1
        _ = s.num * u.den * t.den := by ring
    exact le_of_mul_le_mul_right key ht
  · intro hle
    have h1 : u.num * s.den * t.den ≤ s.num * u.den * t.den :=
      mul_le_mul_of_nonneg_right hle (Int.le_of_lt ht)
    have e : t.num * s.den * u.den = u.num * s.den * t.den := by
      linear_combination s.den * h
    have key : t.num * s.den * u.den ≤ s.num * t.den * u.den := by
      calc t.num * s.den * u.den = u.num * s.den * t.den := e
        _ ≤ s.num * u.den * t.den := h1
        _ = s.num * t.den * u.den := by ring
    exact le_of_mul_le_mul_right key hu

theorem genAttempt_some_accepts (ps : ParameterSpace) (cascade : List Classifier) :
    ∀ (fuel rng : Nat) (s : Sample), genAttempt ps cascade fuel rng = some s →
      cascadeAccepts cascade (encodeSample ps s) = true := by
  intro fuel
  induction fuel with
  | zero => intro rng s h; simp [genAttempt] at h
  | succ n ih =>
    intro rng s h
    simp only [genAttempt] at h
    by_cases hacc : cascadeAccepts cascade (encodeSample ps (sampleSpace ps rng).1) = true
    · rw [if_pos hacc] at h
      cases h
      exact hacc
    · rw [if_neg hacc] at h
      exact ih _ _ h

theorem genAttemptCount_le (ps : ParameterSpace) (cascade : List Classifier) :
    ∀ (fuel rng : Nat), genAttemptCount ps cascade fuel rng ≤ fuel := by
  intro fuel
  induction fuel with
  | zero => intro rng; simp [genAttemptCount]
  | succ n ih =>
    intro rng
    simp only [genAttemptCount]
    by_cases hacc : cascadeAccepts cascade (encodeSample ps (sampleSpace ps rng).1) = true
    · rw [if_pos hacc]; omega
    · rw [if_neg hacc]
      have := ih (sampleSpace ps rng).2
      omega

theorem genAttempt_nil_cascade (ps : ParameterSpace) (fuel rng : Nat)
    (h : 0 < fuel) : genAttempt ps [] fuel rng = some (sampleSpace ps rng).1 := by
  cases fuel with
  | zero => omega
  | succ n => simp [genAttempt, cascadeAccepts]

theorem lookupSlot_runSchedule_of_none (cfg : Config) (ps : ParameterSpace)
    (cascade : List Classifier) (epoch i : Nat)
    (h : slotResult cfg ps cascade epoch i = none) :
    ∀ order : List Nat, lookupSlot (runSchedule cfg ps cascade epoch order) i = none := by
  intro order
  induction order with
  | nil => simp [runSchedule, lookupSlot]
  | cons j rest ih =>
    simp only [runSchedule]
    cases hj : slotResult cfg ps cascade epoch j with
    | none => exact ih
    | some s =>
      simp only [lookupSlot]
      by_cases hij : j = i
      · subst hij; rw [hj] at h; cases h
      · rw [if_neg hij]; exact ih

theorem lookupSlot_runSchedule_of_mem (cfg : Config) (ps : ParameterSpace)
    (cascade : List Classifier) (epoch i : Nat) :
    ∀ order : List Nat, i ∈ order →
      lookupSlot (runSchedule cfg ps cascade epoch order) i =
        slotResult cfg ps cascade epoch i := by
  intro order
  induction order with
  | nil => intro h; cases h
  | cons j rest ih =>
    intro hmem
    simp only [runSchedule]
    cases hj : slotResult cfg ps cascade epoch j with
    | none =>
      by_cases hij : j = i
      · subst hij
        rw [hj]
        exact lookupSlot_runSchedule_of_none cfg ps cascade epoch j hj rest
      · cases List.mem_cons.mp hmem with
        | inl h => exact absurd h.symm hij
        | inr h => exact ih h
    | some s =>
      simp only [lookupSlot]
      by_cases hij : j = i
      · subst hij; rw [if_pos rfl, hj]
      · rw [if_neg hij]
        cases List.mem_cons.mp hmem with
        | inl h => exact absurd h.symm hij
        | inr h => exact ih h

theorem collectSlots_congr (res1 res2 : List (Nat × Sample)) :
    ∀ n : Nat, (∀ i < n, lookupSlot res1 i = lookupSlot res2 i) →
      collectSlots res1 n = collectSlots res2 n := by
  intro n
  induction n with
  | zero => intro _; rfl
  | succ m ih =>
    intro h
    simp only [collectSlots]
    rw [ih (fun i hi => h i (by omega)), h m (by omega)]

theorem collectSlots_length (res : List (Nat × Sample)) :
    ∀ (n : Nat) (l : List Sample), collectSlots res n = some l → l.length = n := by
  intro n
  induction n with
  | zero => intro l h; simp [collectSlots] at h; subst h; rfl
  | succ m ih =>
    intro l h
    simp only [collectSlots] at h
    cases hc : collectSlots res m with
    | none => rw [hc] at h; cases h
    | some l0 =>
      rw [hc] at h
      cases hl : lookupSlot res m with
      | none => rw [hl] at h; cases h
      | some x =>
        rw [hl] at h
        cases h
        have := ih l0 hc
        simp [this]

theorem collectSlots_of_all_some (res : List (Nat × Sample)) :
    ∀ n : Nat, (∀ i < n, lookupSlot res i ≠ none) →
      ∃ l, collectSlots res n = some l := by
  intro n
  induction n with
  | zero => intro _; exact ⟨[], rfl⟩
  | succ m ih =>
    intro h
    obtain ⟨l, hl⟩ := ih (fun i hi => h i (by omega))
    cases hx : lookupSlot res m with
    | none => exact absurd hx (h m (by omega))
    | some x => exact ⟨l ++ [x], by simp [collectSlots, hl, hx]⟩

theorem generateBatchSched_of_mem (cfg : Config) (ps : ParameterSpace)
    (cascade : List Classifier) (epoch : Nat) (order : List Nat)
    (h : ∀ i < cfg.numBatches, i ∈ order) :
    generateBatchSched cfg ps cascade epoch order =
      generateBatchSched cfg ps cascade epoch (canonicalOrder cfg) := by
  unfold generateBatchSched
  apply collectSlots_congr
  intro i hi
  rw [lookupSlot_runSchedule_of_mem cfg ps cascade epoch i order (h i hi),
    lookupSlot_runSchedule_of_mem cfg ps cascade epoch i (canonicalOrder cfg)
      (by simpa [canonicalOrder] using hi)]

theorem evalBatch_length (f : EvalFn) :
    ∀ (w : Nat) (l : List Sample), (evalBatch f w l).length = l.length := by
  intro w l
  induction l generalizing w with
  | nil => rfl
  | cons s rest ih => simp [evalBatch, ih]

theorem fitLoopSched_halted (cfg : Config) (ps : ParameterSpace) (f : EvalFn)
    (scheds : Nat → List Nat) (n : Nat) (st : EngineState)
    (h : st.halted = true) : fitLoopSched cfg ps f scheds n st = st := by
  cases n with
  | zero => rfl
  | succ m => simp [fitLoopSched, h]

theorem fitLoopSched_not_halted_start (cfg : Config) (ps : ParameterSpace)
    (f : EvalFn) (scheds : Nat → List Nat) (n : Nat) (st : EngineState)
    (h : (fitLoopSched cfg ps f scheds n st).halted = false) : st.halted = false := by
  cases n with
  | zero => exact h
  | succ m =>
    by_cases hst : st.halted
    · rw [fitLoopSched_halted cfg ps f scheds (m + 1) st hst] at h
      rw [h] at hst
      cases hst
    · simpa using hst

theorem epochStepSched_none (cfg : Config) (ps : ParameterSpace) (f : EvalFn)
    (order : List Nat) (st : EngineState)
    (hb : generateBatchSched cfg ps st.cascade st.epochsDone order = none) :
    epochStepSched cfg ps f order st = { st with halted := true } := by
  unfold epochStepSched
  rw [hb]

theorem epochStepSched_some (cfg : Config) (ps : ParameterSpace) (f : EvalFn)
    (order : List Nat) (st : EngineState) (batch : List Sample)
    (hb : generateBatchSched cfg ps st.cascade st.epochsDone order = some batch) :
    epochStepSched cfg ps f order st =
      if (epochTrainDecision cfg ps f batch st.cascade).1 &&
          decide (st.cascade.length < totalClassifiers cfg) then
        ⟨⟨st.dataset.rows ++ List.zip batch (evalBatch f 0 batch)⟩,
          st.cascade ++ [(epochTrainDecision cfg ps f batch st.cascade).2],
          st.epochsDone + 1, false⟩
      else
        ⟨⟨st.dataset.rows ++ List.zip batch (evalBatch f 0 batch)⟩,
          st.cascade, st.epochsDone + 1,
          cfg.earlyStop && !(epochTrainDecision cfg ps f batch st.cascade).1 &&
            decide (st.cascade.length < totalClassifiers cfg)⟩ := by
  unfold epochStepSched
  rw [hb]

theorem epochStepSched_not_halted (cfg : Config) (ps : ParameterSpace)
    (f : EvalFn) (order : List Nat) (st : EngineState)
    (h : (epochStepSched cfg ps f order st).halted = false) :
    (epochStepSched cfg ps f order st).dataset.rows.length =
        st.dataset.rows.length + cfg.numBatches ∧
      (epochStepSched cfg ps f order st).epochsDone = st.epochsDone + 1 := by
  cases hb : generateBatchSched cfg ps st.cascade st.epochsDone order with
  | none =>
    rw [epochStepSched_none cfg ps f order st hb] at h
    simp at h
  | some batch =>
    rw [epochStepSched_some cfg ps f order st batch hb]
    have hlen : batch.length = cfg.numBatches :=
      collectSlots_length _ _ _ hb
    have hzip : (List.zip batch (evalBatch f 0 batch)).length = cfg.numBatches := by
      simp [List.length_zip, evalBatch_length, hlen]
    by_cases hdec :
        ((epochTrainDecision cfg ps f batch st.cascade).1 &&
          decide (st.cascade.length < totalClassifiers cfg)) = true
    · rw [if_pos hdec]
      exact ⟨by simp [hzip], rfl⟩
    · rw [if_neg hdec]
      exact ⟨by simp [hzip], rfl⟩

theorem fitLoopSched_size (cfg : Config) (ps : ParameterSpace) (f : EvalFn)
    (scheds : Nat → List Nat) :
    ∀ (n : Nat) (st : EngineState),
      (fitLoopSched cfg ps f scheds n st).halted = false →
      (fitLoopSched cfg ps f scheds n st).dataset.rows.length =
          st.dataset.rows.length + n * cfg.numBatches ∧
        (fitLoopSched cfg ps f scheds n st).epochsDone = st.epochsDone + n := by
  intro n
  induction n with
  | zero => intro st _; exact ⟨by simp [fitLoopSched], by simp [fitLoopSched]⟩
  | succ m ih =>
    intro st h
    have hst : st.halted = false := fitLoopSched_not_halted_start cfg ps f scheds _ st h
    simp only [fitLoopSched, hst, Bool.false_eq_true, if_false] at h ⊢
    set st1 := epochStepSched cfg ps f (scheds st.epochsDone) st with hst1
    have hst1f : st1.halted = false := fitLoopSched_not_halted_start cfg ps f scheds m st1 h
    have hstep := epochStepSched_not_halted cfg ps f (scheds st.epochsDone) st
      (by rw [← hst1]; exact hst1f)
    obtain ⟨ihs, ihe⟩ := ih st1 h
    rw [← hst1] at hstep
    constructor
    · rw [ihs, hstep.1]; ring
    · rw [ihe, hstep.2]; omega

theorem epochStepSched_cascade_bound (cfg : Config) (ps : ParameterSpace)
    (f : EvalFn) (order : List Nat) (st : EngineState)
    (h1 : st.cascade.length ≤ totalClassifiers cfg)
    (h2 : st.cascade.length ≤ st.epochsDone) :
    (epochStepSched cfg ps f order st).cascade.length ≤ totalClassifiers cfg ∧
      (epochStepSched cfg ps f order st).cascade.length ≤
        (epochStepSched cfg ps f order st).epochsDone := by
  cases hb : generateBatchSched cfg ps st.cascade st.epochsDone order with
  | none =>
    rw [epochStepSched_none cfg ps f order st hb]
    exact ⟨h1, h2⟩
  | some batch =>
    rw [epochStepSched_some cfg ps f order st batch hb]
    by_cases hdec :
        ((epochTrainDecision cfg ps f batch st.cascade).1 &&
          decide (st.cascade.length < totalClassifiers cfg)) = true
    · rw [if_pos hdec]
      have hroom : st.cascade.length < totalClassifiers cfg := by
        have := (Bool.and_eq_true _ _).mp hdec
        exact of_decide_eq_true this.2
      constructor
      · simp only [List.length_append, List.length_cons, List.length_nil]
        omega
      · simp only [List.length_append, List.length_cons, List.length_nil]
        omega
    · rw [if_neg hdec]
      exact ⟨h1, by simp only []; omega⟩

theorem fitLoopSched_cascade_bound (cfg : Config) (ps : ParameterSpace)
    (f : EvalFn) (scheds : Nat → List Nat) :
    ∀ (n : Nat) (st : EngineState),
      st.cascade.length ≤ totalClassifiers cfg →
      st.cascade.length ≤ st.epochsDone →
      st.epochsDone ≤ st.epochsDone →
      (fitLoopSched cfg ps f scheds n st).cascade.length ≤ totalClassifiers cfg ∧
        (fitLoopSched cfg ps f scheds n st).cascade.length ≤
          (fitLoopSched cfg ps f scheds n st).epochsDone ∧
        (fitLoopSched cfg ps f scheds n st).epochsDone ≤ st.epochsDone + n := by
  intro n
  induction n with
  | zero => intro st h1 h2 _; exact ⟨by simpa [fitLoopSched] using h1,
      by simpa [fitLoopSched] using h2, by simp [fitLoopSched]⟩
  | succ m ih =>
    intro st h1 h2 _
    by_cases hst : st.halted
    · rw [fitLoopSched_halted cfg ps f scheds (m + 1) st hst]
      exact ⟨h1, h2, by omega⟩
    · simp only [Bool.not_eq_true] at hst
      simp only [fitLoopSched, hst, Bool.false_eq_true, if_false]
      set st1 := epochStepSched cfg ps f (scheds st.epochsDone) st with hst1
      have hstep := epochStepSched_cascade_bound cfg ps f (scheds st.epochsDone) st h1 h2
      rw [← hst1] at hstep
      have hepoch : st1.epochsDone ≤ st.epochsDone + 1 := by
        rw [hst1]
        cases hb : generateBatchSched cfg ps st.cascade st.epochsDone (scheds st.epochsDone) with
        | none => rw [epochStepSched_none cfg ps f _ st hb]; dsimp only; omega
        | some batch =>
          rw [epochStepSched_some cfg ps f _ st batch hb]
          by_cases hdec :
              ((epochTrainDecision cfg ps f batch st.cascade).1 &&
                decide (st.cascade.length < totalClassifiers cfg)) = true
          · rw [if_pos hdec]
          · rw [if_neg hdec]
      obtain ⟨c1, c2, c3⟩ := ih st1 hstep.1 hstep.2 le_rfl
      exact ⟨c1, c2, by omega⟩

/-- C1: if fit returns normally (budget exhausted, no halt) under a
configuration with positive total budget evenly divided by num_batches, the
number of (sample, score) records stored equals total_budget. -/
theorem C1_fit_size_eq_total_budget (cfg : Config) (ps : ParameterSpace)
    (f : EvalFn) (_hpos : 0 < cfg.totalBudget)
    (hdvd : cfg.numBatches ∣ cfg.totalBudget)
    (hok : (fit cfg ps f).halted = false) :
    (fit cfg ps f).dataset.size = cfg.totalBudget := by
  unfold fit fitSched at hok ⊢
  have h := fitLoopSched_size cfg ps f (fun _ => canonicalOrder cfg)
    (numEpochs cfg) initState hok
  have hmul : numEpochs cfg * cfg.numBatches = cfg.totalBudget :=
    Nat.div_mul_cancel hdvd
  unfold Dataset.size
  rw [h.1]
  simp [initState, hmul]

/-- Witness for C1 at the concrete configuration: budget 8, 2 epochs of 4. -/
theorem C1_fit_size_eq_total_budget_witness :
    0 < exConfig.totalBudget ∧ exConfig.numBatches ∣ exConfig.totalBudget ∧
      (fit exConfig exSpace exEval).halted = false ∧
      (fit exConfig exSpace exEval).dataset.size = exConfig.totalBudget :=
  ⟨by decide, by decide, by decide,
    C1_fit_size_eq_total_budget exConfig exSpace exEval (by decide) (by decide)
      (by decide)⟩

/-- C2: at every point of training (any fuel, any completion schedule) the
classifier cascade length is at most min(max_classifiers, num_epochs) and at
most the number of completed epochs, which never exceeds the fuel spent; no
operation exceeds these bounds. -/
theorem C2_cascade_bounds (cfg : Config) (ps : ParameterSpace) (f : EvalFn)
    (scheds : Nat → List Nat) (k : Nat) :
    (fitLoopSched cfg ps f scheds k initState).cascade.length ≤
        min cfg.maxClassifiers (numEpochs cfg) ∧
      (fitLoopSched cfg ps f scheds k initState).cascade.length ≤
        (fitLoopSched cfg ps f scheds k initState).epochsDone ∧
      (fitLoopSched cfg ps f scheds k initState).epochsDone ≤ k := by
  have h := fitLoopSched_cascade_bound cfg ps f scheds k initState
    (by simp [initState]) (by simp [initState]) le_rfl
  refine ⟨?_, h.2.1, by simpa [initState] using h.2.2⟩
  have h1 := h.1
  unfold totalClassifiers at h1
  omega

theorem epochStepSched_congr (cfg : Config) (ps : ParameterSpace) (f : EvalFn)
    (order : List Nat) (st : EngineState)
    (h : ∀ i < cfg.numBatches, i ∈ order) :
    epochStepSched cfg ps f order st =
      epochStepSched cfg ps f (canonicalOrder cfg) st := by
  unfold epochStepSched
  rw [generateBatchSched_of_mem cfg ps st.cascade st.epochsDone order h]

theorem fitLoopSched_congr (cfg : Config) (ps : ParameterSpace) (f : EvalFn)
    (scheds : Nat → List Nat)
    (h : ∀ e, ∀ i < cfg.numBatches, i ∈ scheds e) :
    ∀ (n : Nat) (st : EngineState),
      fitLoopSched cfg ps f scheds n st =
        fitLoopSched cfg ps f (fun _ => canonicalOrder cfg) n st := by
  intro n
  induction n with
  | zero => intro st; rfl
  | succ m ih =>
    intro st
    simp only [fitLoopSched]
    by_cases hst : st.halted
    · rw [if_pos hst, if_pos hst]
    · rw [if_neg hst, if_neg hst,
        epochStepSched_congr cfg ps f (scheds st.epochsDone) st (h st.epochsDone), ih]

/-- C5: run-to-run determinism.  For a fixed seed and identical configuration
and evaluation function, any two runs of fit, with arbitrary per-epoch worker
completion orders that each cover the batch slots, produce identical engine
states, hence byte-identical dataset.csv renderings and classifiers with
identical predictions on any fixed test vector. -/
theorem C5_fixed_seed_determinism (cfg : Config) (ps : ParameterSpace)
    (f : EvalFn) (scheds1 scheds2 : Nat → List Nat)
    (h1 : ∀ e, (scheds1 e).Perm (canonicalOrder cfg))
    (h2 : ∀ e, (scheds2 e).Perm (canonicalOrder cfg)) :
    Dataset.toCSV ps (fitSched cfg ps f scheds1).dataset =
        Dataset.toCSV ps (fitSched cfg ps f scheds2).dataset ∧
      (∀ v : List Q,
        (fitSched cfg ps f scheds1).cascade.map (fun c => c.predict v) =
          (fitSched cfg ps f scheds2).cascade.map (fun c => c.predict v)) ∧
      fitSched cfg ps f scheds1 = fitSched cfg ps f scheds2 := by
  have key : fitSched cfg ps f scheds1 = fitSched cfg ps f scheds2 := by
    unfold fitSched
    rw [fitLoopSched_congr cfg ps f scheds1
        (fun e i hi => ((h1 e).mem_iff).mpr (by simpa [canonicalOrder] using hi)),
      fitLoopSched_congr cfg ps f scheds2
        (fun e i hi => ((h2 e).mem_iff).mpr (by simpa [canonicalOrder] using hi))]
  exact ⟨by rw [key], fun v => by rw [key], key⟩

/-- Witness for C5: the reversed completion schedule against the in-order
schedule on the concrete configuration. -/
theorem C5_fixed_seed_determinism_witness :
    Dataset.toCSV exSpace
        (fitSched exConfig exSpace exEval (fun _ => [3, 2, 1, 0])).dataset =
      Dataset.toCSV exSpace
        (fitSched exConfig exSpace exEval (fun _ => [0, 1, 2, 3])).dataset := by
  have hA : List.Perm [3, 2, 1, 0] (canonicalOrder exConfig) := by decide
  have hB : List.Perm [0, 1, 2, 3] (canonicalOrder exConfig) := by decide
  exact (C5_fixed_seed_determinism exConfig exSpace exEval
    (fun _ => [3, 2, 1, 0]) (fun _ => [0, 1, 2, 3])
    (fun _ => hA) (fun _ => hB)).1

theorem map_deserialize_serialize (cs : List Classifier) :
    (cs.map Classifier.serialize).map Classifier.deserialize = cs := by
  induction cs with
  | nil => rfl
  | cons c rest ih => simp [Classifier.serialize, Classifier.deserialize, ih]

/-- C6: save followed by restore yields an engine producing the same
subsequent samples and predictions as the original: the restored engine has
the same dataset, cascade and epoch counter, and predict(n) returns the same
sample sequence for every n and every truncation setting. -/
theorem C6_save_restore_equivalence (cfg : Config) (ps : ParameterSpace)
    (st : EngineState) (n : Nat) (mc : Option Nat) :
    predictSamples cfg ps (restore (save cfg ps st)) n mc =
        predictSamples cfg ps st n mc ∧
      (restore (save cfg ps st)).dataset = st.dataset ∧
      (restore (save cfg ps st)).cascade = st.cascade ∧
      (restore (save cfg ps st)).epochsDone = st.epochsDone := by
  have hc : (restore (save cfg ps st)).cascade = st.cascade :=
    map_deserialize_serialize st.cascade
  refine ⟨?_, by simp [restore, save], hc, by simp [restore, save]⟩
  unfold predictSamples
  rw [hc]
  simp [restore, save]

theorem runOps_filter_fit (cfg : Config) (ps : ParameterSpace) (f : EvalFn) :
    ∀ (ops : List EngineOp) (st : EngineState),
      (runOps cfg ps f (ops.filter EngineOp.isFit) st).1 =
        (runOps cfg ps f ops st).1 := by
  intro ops
  induction ops with
  | nil => intro st; rfl
  | cons op rest ih =>
    intro st
    cases op with
    | fitEpoch => simp [List.filter, EngineOp.isFit, runOps, ih]
    | predictOp n mc => simp [List.filter, EngineOp.isFit, runOps, ih]

/-- C7: predict is pure.  In any operation sequence, removing all predict
calls leaves the final engine state (dataset, cascade, everything) unchanged,
and two consecutive predict calls with the same arguments return the same
sample list. -/
theorem C7_predict_pure (cfg : Config) (ps : ParameterSpace) (f : EvalFn)
    (ops : List EngineOp) (st : EngineState) (n : Nat) (mc : Option Nat) :
    (runOps cfg ps f (ops.filter EngineOp.isFit) st).1 =
        (runOps cfg ps f ops st).1 ∧
      (runOps cfg ps f (EngineOp.predictOp n mc :: EngineOp.predictOp n mc :: ops) st).2.take 2 =
        [predictSamples cfg ps st n mc, predictSamples cfg ps st n mc] := by
  refine ⟨runOps_filter_fit cfg ps f ops st, ?_⟩
  simp [runOps]

/-- C8: bounded generator termination.  The per-slot rejection loop performs
at most cap attempts; when it emits a sample, every classifier of the cascade
accepts it; and when an epoch batch cannot be completed (GeneratorExhausted),
the epoch halts with the engine state up to the last completed epoch
preserved (dataset, cascade, epoch counter unchanged), giving the partial
result. -/
theorem C8_generator_bounded (cfg : Config) (ps : ParameterSpace) (f : EvalFn)
    (cascade : List Classifier) (order : List Nat) (st : EngineState)
    (fuel rng : Nat) :
    genAttemptCount ps cascade fuel rng ≤ fuel ∧
      (∀ s : Sample, genAttempt ps cascade fuel rng = some s →
        cascadeAccepts cascade (encodeSample ps s) = true) ∧
      (generateBatchSched cfg ps st.cascade st.epochsDone order = none →
        epochStepSched cfg ps f order st = { st with halted := true }) :=
  ⟨genAttemptCount_le ps cascade fuel rng,
    fun s h => genAttempt_some_accepts ps cascade fuel rng s h,
    fun hb => epochStepSched_none cfg ps f order st hb⟩

/-- Witness for C8 at a zero generation cap: the loop makes no attempt, the
batch fails, and the epoch halts preserving the fresh state. -/
theorem C8_generator_bounded_witness :
    genAttemptCount exSpace [] exConfigExhaust.genCap 7 ≤ exConfigExhaust.genCap ∧
      epochStepSched exConfigExhaust exSpace exEval
          (canonicalOrder exConfigExhaust) initState =
        { initState with halted := true } :=
  ⟨(C8_generator_bounded exConfigExhaust exSpace exEval [] (canonicalOrder exConfigExhaust)
      initState exConfigExhaust.genCap 7).1,
    (C8_generator_bounded exConfigExhaust exSpace exEval [] (canonicalOrder exConfigExhaust)
      initState exConfigExhaust.genCap 7).2.2 (by decide)⟩

/-- C9: an epoch whose batch has fewer than 2 samples of either label (for
instance a single-class batch with all scores equal) adds no classifier to
the cascade, still appends the batch records to the dataset, and training
continues to the next epoch unless early_stop is set. -/
theorem C9_untrainable_batch_skips_classifier (cfg : Config)
    (ps : ParameterSpace) (f : EvalFn) (order : List Nat) (st : EngineState)
    (batch : List Sample)
    (hb : generateBatchSched cfg ps st.cascade st.epochsDone order = some batch)
    (hsmall :
      (Dataset.labels ⟨List.zip batch (evalBatch f 0 batch)⟩
          (Dataset.threshold ⟨List.zip batch (evalBatch f 0 batch)⟩ qhalf
            cfg.objective) cfg.objective).countP id < 2 ∨
      (Dataset.labels ⟨List.zip batch (evalBatch f 0 batch)⟩
          (Dataset.threshold ⟨List.zip batch (evalBatch f 0 batch)⟩ qhalf
            cfg.objective) cfg.objective).countP (fun b => !b) < 2) :
    (epochStepSched cfg ps f order st).cascade = st.cascade ∧
      (epochStepSched cfg ps f order st).dataset.rows =
        st.dataset.rows ++ List.zip batch (evalBatch f 0 batch) ∧
      (epochStepSched cfg ps f order st).epochsDone = st.epochsDone + 1 ∧
      (cfg.earlyStop = false → (epochStepSched cfg ps f order st).halted = false) := by
  have hdec : (epochTrainDecision cfg ps f batch st.cascade).1 = false := by
    unfold epochTrainDecision
    dsimp only
    rcases hsmall with h | h
    · have hfalse : decide (2 ≤ (Dataset.labels ⟨List.zip batch (evalBatch f 0 batch)⟩
          (Dataset.threshold ⟨List.zip batch (evalBatch f 0 batch)⟩ qhalf
            cfg.objective) cfg.objective).countP id) = false := by
        simp; omega
      rw [hfalse]
      simp
    · have hfalse : decide (2 ≤ (Dataset.labels ⟨List.zip batch (evalBatch f 0 batch)⟩
          (Dataset.threshold ⟨List.zip batch (evalBatch f 0 batch)⟩ qhalf
            cfg.objective) cfg.objective).countP (fun b => !b)) = false := by
        simp; omega
      rw [hfalse]
      simp
  rw [epochStepSched_some cfg ps f order st batch hb]
  rw [if_neg (by simp [hdec])]
  refine ⟨rfl, rfl, rfl, ?_⟩
  intro he
  simp [he]

/-- Witness for C9: the constant evaluation function yields a single-class
batch; the epoch appends data, skips the classifier and continues. -/
theorem C9_untrainable_batch_skips_classifier_witness :
    (epochStepSched exConfig exSpace exConstEval (canonicalOrder exConfig)
        initState).cascade = initState.cascade ∧
      (epochStepSched exConfig exSpace exConstEval (canonicalOrder exConfig)
        initState).halted = false := by
  have h := C9_untrainable_batch_skips_classifier exConfig exSpace exConstEval
    (canonicalOrder exConfig) initState
    [[PValue.int 1], [PValue.int 3], [PValue.int 1], [PValue.int 3]]
    (by decide) (Or.inr (by decide))
  exact ⟨h.1, h.2.2.2 rfl⟩

theorem qround_ofNat (n : Nat) : Q.round (Q.ofNat n) = (n : Int) := by
  unfold Q.round Q.ofNat
  dsimp only
  rw [Int.fdiv_eq_ediv _ (by omega)]
  omega

theorem memVal_iff (v : PValue) : ∀ l : List PValue, memVal v l = true ↔ v ∈ l := by
  intro l
  induction l with
  | nil => simp [memVal]
  | cons w ws ih =>
    simp only [memVal]
    by_cases h : w = v
    · subst h; simp
    · rw [if_neg h]
      simp only [List.mem_cons, ih]
      constructor
      · exact Or.inr
      · rintro (rfl | hx)
        · exact absurd rfl h
        · exact hx

theorem idxOf_lt_length (v : PValue) :
    ∀ l : List PValue, memVal v l = true → idxOf v l < l.length := by
  intro l
  induction l with
  | nil => intro h; simp [memVal] at h
  | cons w ws ih =>
    intro h
    simp only [idxOf]
    by_cases hw : w = v
    · rw [if_pos hw]; simp
    · rw [if_neg hw]
      simp only [memVal, if_neg hw] at h
      have := ih h
      simp
      omega

theorem getD_idxOf (v d : PValue) :
    ∀ l : List PValue, memVal v l = true → l.getD (idxOf v l) d = v := by
  intro l
  induction l with
  | nil => intro h; simp [memVal] at h
  | cons w ws ih =>
    intro h
    simp only [idxOf]
    by_cases hw : w = v
    · rw [if_pos hw]; simpa using hw
    · rw [if_neg hw]
      simp only [memVal, if_neg hw] at h
      simpa [List.getD] using ih h

theorem natClamp_of_le (i hi : Nat) (h : i ≤ hi) : natClamp (i : Int) hi = i := by
  unfold natClamp
  split <;> omega

theorem decode_encode_value (p : HyperParameter) (v : PValue)
    (h : p.admits v = true) : p.decode (p.encode v) = v := by
  cases p with
  | discrete n values =>
    simp only [HyperParameter.admits] at h
    simp only [HyperParameter.encode, HyperParameter.decode, qround_ofNat]
    have hlt := idxOf_lt_length v values h
    rw [natClamp_of_le _ _ (by omega)]
    exact getD_idxOf v _ values h
  | uniformContinuous n lo hi =>
    cases v with
    | real r => rfl
    | int i => simp [HyperParameter.admits] at h
    | str s => simp [HyperParameter.admits] at h
  | normalContinuous n m sd =>
    cases v with
    | real r => rfl
    | int i => simp [HyperParameter.admits] at h
    | str s => simp [HyperParameter.admits] at h

theorem decode_encode_conforms :
    ∀ (ps : ParameterSpace) (s : Sample), conforms ps s = true →
      decodeVector ps (encodeSample ps s) = s := by
  intro ps
  induction ps with
  | nil =>
    intro s h
    cases s with
    | nil => rfl
    | cons v vs => simp [conforms] at h
  | cons p rest ih =>
    intro s h
    cases s with
    | nil => simp [conforms] at h
    | cons v vs =>
      simp only [conforms, Bool.and_eq_true] at h
      simp only [decodeVector, encodeSample, List.zipWith]
      rw [decode_encode_value p v h.1]
      have := ih vs h.2
      simpa [decodeVector, encodeSample] using this

theorem sample_admits (p : HyperParameter) (rng : Nat)
    (h : (match p with
          | .discrete _ values => !values.isEmpty
          | _ => true) = true) :
    p.admits (p.sample rng).1 = true := by
  cases p with
  | discrete n values =>
    simp only [HyperParameter.sample, HyperParameter.admits]
    rw [memVal_iff]
    have hne : values.length ≠ 0 := by
      simpa [List.isEmpty_iff, List.length_eq_zero] using h
    have hlt : rng % values.length < values.length := Nat.mod_lt _ (by omega)
    rw [List.getD_eq_getElem _ _ hlt]
    exact List.getElem_mem hlt
  | uniformContinuous n lo hi => rfl
  | normalContinuous n m sd => rfl

theorem conforms_sampleSpace :
    ∀ (ps : ParameterSpace) (rng : Nat), wellFormed ps = true →
      conforms ps (sampleSpace ps rng).1 = true := by
  intro ps
  induction ps with
  | nil => intro rng _; rfl
  | cons p rest ih =>
    intro rng h
    simp only [wellFormed, Bool.and_eq_true] at h
    simp only [sampleSpace, conforms, Bool.and_eq_true]
    exact ⟨sample_admits p rng h.1, ih _ h.2⟩

/-- C4: for every well-formed Parameter Space and every sample drawn from it,
decoding the encoding returns the sample: exact equality on numeric
dimensions, ordinal-index equality on Discrete dimensions, decode rounding
the real to the nearest valid ordinal index clamped to the declared range. -/
theorem C4_decode_encode_roundtrip (ps : ParameterSpace) (rng : Nat)
    (h : wellFormed ps = true) :
    decodeVector ps (encodeSample ps (sampleSpace ps rng).1) =
      (sampleSpace ps rng).1 :=
  decode_encode_conforms ps (sampleSpace ps rng).1 (conforms_sampleSpace ps rng h)

/-- Witness for C4 at the concrete space and an arbitrary stream state. -/
theorem C4_decode_encode_roundtrip_witness :
    wellFormed exSpace = true ∧
      decodeVector exSpace (encodeSample exSpace (sampleSpace exSpace 7).1) =
        (sampleSpace exSpace 7).1 :=
  ⟨by decide, C4_decode_encode_roundtrip exSpace 7 (by decide)⟩

theorem fitLoopSched_succ_last (cfg : Config) (ps : ParameterSpace) (f : EvalFn)
    (scheds : Nat → List Nat) :
    ∀ (n : Nat) (st : EngineState),
      fitLoopSched cfg ps f scheds (n + 1) st =
        (if (fitLoopSched cfg ps f scheds n st).halted then
          fitLoopSched cfg ps f scheds n st
         else
          epochStepSched cfg ps f
            (scheds (fitLoopSched cfg ps f scheds n st).epochsDone)
            (fitLoopSched cfg ps f scheds n st)) := by
  intro n
  induction n with
  | zero =>
    intro st
    by_cases hst : st.halted
    · simp [fitLoopSched, hst]
    · simp [fitLoopSched, hst]
  | succ m ih =>
    intro st
    by_cases hst : st.halted
    · rw [fitLoopSched_halted cfg ps f scheds (m + 1 + 1) st hst,
        fitLoopSched_halted cfg ps f scheds (m + 1) st hst,
        if_pos hst]
    · have step1 : fitLoopSched cfg ps f scheds (m + 1 + 1) st =
          fitLoopSched cfg ps f scheds (m + 1)
            (epochStepSched cfg ps f (scheds st.epochsDone) st) := by
        simp [fitLoopSched, hst]
      have step2 : fitLoopSched cfg ps f scheds (m + 1) st =
          fitLoopSched cfg ps f scheds m
            (epochStepSched cfg ps f (scheds st.epochsDone) st) := by
        simp [fitLoopSched, hst]
      rw [step1, step2, ih]

theorem fitLoop_trainable_growth (cfg : Config) (ps : ParameterSpace)
    (f : EvalFn) (h5 : allEpochsTrainable cfg ps f = true) :
    ∀ k : Nat, k ≤ numEpochs cfg →
      (fitLoopSched cfg ps f (fun _ => canonicalOrder cfg) k initState).halted = false ∧
        (fitLoopSched cfg ps f (fun _ => canonicalOrder cfg) k initState).epochsDone = k ∧
        (fitLoopSched cfg ps f (fun _ => canonicalOrder cfg) k initState).cascade.length =
          min k (totalClassifiers cfg) := by
  intro k
  induction k with
  | zero => intro _; exact ⟨rfl, rfl, by simp [fitLoopSched, initState]⟩
  | succ m ih =>
    intro hk
    obtain ⟨ihh, ihe, ihl⟩ := ih (by omega)
    set stm := fitLoopSched cfg ps f (fun _ => canonicalOrder cfg) m initState with hstm
    have htr : epochTrainable cfg ps f stm = true := by
      have hall := (List.all_eq_true).mp h5
      have := hall m (by simp [List.mem_range]; omega)
      simpa [hstm] using this
    rw [fitLoopSched_succ_last cfg ps f (fun _ => canonicalOrder cfg) m initState]
    rw [← hstm, ihh]
    simp only [Bool.false_eq_true, if_false]
    unfold epochTrainable at htr
    cases hb : generateBatchSched cfg ps stm.cascade stm.epochsDone (canonicalOrder cfg) with
    | none => rw [hb] at htr; cases htr
    | some batch =>
      rw [hb] at htr
      dsimp only at htr
      rw [epochStepSched_some cfg ps f (canonicalOrder cfg) stm batch hb]
      by_cases hroom : stm.cascade.length < totalClassifiers cfg
      · rw [if_pos (by simp [htr, hroom])]
        refine ⟨rfl, by dsimp only; omega, ?_⟩
        dsimp only
        simp only [List.length_append, List.length_cons, List.length_nil]
        omega
      · rw [if_neg (by simp [htr, hroom])]
        refine ⟨by dsimp only; simp [htr], by dsimp only; omega, ?_⟩
        dsimp only
        omega

/-- C10: when max_classifiers is at least num_epochs, a complete fit in which
every epoch generates its batch and trains (the recorded notebook run)
produces a cascade of exactly num_epochs - 1 classifiers: the final epoch
still evaluates and appends its samples (the dataset reaches the full
budget) but contributes no classifier to the persisted cascade. -/
theorem C10_full_fit_trains_num_epochs_minus_one (cfg : Config)
    (ps : ParameterSpace) (f : EvalFn)
    (h2 : numEpochs cfg ≤ cfg.maxClassifiers) (h3 : 1 ≤ numEpochs cfg)
    (h5 : allEpochsTrainable cfg ps f = true) :
    (fit cfg ps f).cascade.length = numEpochs cfg - 1 ∧
      (fit cfg ps f).halted = false ∧
      (fit cfg ps f).dataset.size = numEpochs cfg * cfg.numBatches := by
  have hg := fitLoop_trainable_growth cfg ps f h5 (numEpochs cfg) le_rfl
  have hfit : fit cfg ps f =
      fitLoopSched cfg ps f (fun _ => canonicalOrder cfg) (numEpochs cfg) initState := rfl
  have hlen : (fit cfg ps f).cascade.length = numEpochs cfg - 1 := by
    rw [hfit, hg.2.2]
    unfold totalClassifiers
    omega
  have hsz := fitLoopSched_size cfg ps f (fun _ => canonicalOrder cfg)
    (numEpochs cfg) initState (by rw [← hfit]; exact hg.1)
  refine ⟨hlen, by rw [hfit]; exact hg.1, ?_⟩
  unfold Dataset.size
  rw [hfit, hsz.1]
  simp [initState]

/-- Witness for C10 at the concrete two-epoch run: budget 8, 4 per batch,
max_classifiers 5, final cascade of exactly one classifier. -/
theorem C10_full_fit_trains_num_epochs_minus_one_witness :
    numEpochs exConfig ≤ exConfig.maxClassifiers ∧ 1 ≤ numEpochs exConfig ∧
      allEpochsTrainable exConfig exSpace exEval = true ∧
      (fit exConfig exSpace exEval).cascade.length = numEpochs exConfig - 1 :=
  ⟨by decide, by decide, by decide,
    (C10_full_fit_trains_num_epochs_minus_one exConfig exSpace exEval
      (by decide) (by decide) (by decide)).1⟩

theorem qfloor_half_mul_ofNat (n : Nat) :
    Q.floor (qhalf.mul (Q.ofNat n)) = ((n / 2 : Nat) : Int) := by
  unfold Q.floor Q.mul Q.ofNat qhalf
  dsimp only
  rw [Int.fdiv_eq_ediv _ (by omega)]
  omega

theorem Q.mul_num (a b : Q) : (a.mul b).num = a.num * b.num := rfl

theorem frac_half_mul_even (m : Nat) :
    ((qhalf.mul (Q.ofNat (2 * m))).sub (Q.ofInt ((m : Nat) : Int))).num = 0 := by
  unfold Q.sub Q.mul Q.ofNat Q.ofInt qhalf
  dsimp only
  push_cast
  ring

theorem frac_half_mul_odd (m : Nat) :
    (qhalf.mul (Q.ofNat (2 * m + 1))).sub (Q.ofInt ((m : Nat) : Int)) = qhalf := by
  rw [Q.ext_iff]
  unfold Q.sub Q.mul Q.ofNat Q.ofInt qhalf
  dsimp only
  constructor
  · push_cast
    ring
  · ring

theorem equiv_add_zero_num (a w : Q) (h : w.num = 0) : Q.equiv (a.add w) a := by
  unfold Q.equiv Q.add
  rw [h]
  ring

theorem getD_default_irrel (l : List Q) (i : Nat) (h : i < l.length) (d1 d2 : Q) :
    l.getD i d1 = l.getD i d2 := by
  rw [List.getD_eq_getElem _ _ h, List.getD_eq_getElem _ _ h]

theorem mid_between (lo hi : Q) (h : Q.lt lo hi) :
    Q.lt lo (lo.add (qhalf.mul (hi.sub lo))) ∧
      Q.lt (lo.add (qhalf.mul (hi.sub lo))) hi := by
  unfold Q.lt Q.add Q.mul Q.sub qhalf at *
  dsimp only at *
  have hld := lo.dpos
  have hhd := hi.dpos
  have hdiff : 0 < hi.num * lo.den - lo.num * hi.den := by omega
  constructor
  · have key : (lo.num * (2 * (hi.den * lo.den)) +
        1 * (hi.num * lo.den - lo.num * hi.den) * lo.den) * lo.den -
        lo.num * (lo.den * (2 * (hi.den * lo.den))) =
        lo.den * lo.den * (hi.num * lo.den - lo.num * hi.den) := by ring
    have pos : 0 < lo.den * lo.den * (hi.num * lo.den - lo.num * hi.den) :=
      mul_pos (mul_pos hld hld) hdiff
    omega
  · have key : hi.num * (lo.den * (2 * (hi.den * lo.den))) -
        (lo.num * (2 * (hi.den * lo.den)) +
          1 * (hi.num * lo.den - lo.num * hi.den) * lo.den) * hi.den =
        hi.den * lo.den * (hi.num * lo.den - lo.num * hi.den) := by ring
    have pos : 0 < hi.den * lo.den * (hi.num * lo.den - lo.num * hi.den) :=
      mul_pos (mul_pos hhd hld) hdiff
    omega

theorem interpolate_half_odd (l : List Q) (m : Nat) (hlen : l.length = 2 * m + 1) :
    Q.equiv (interpolate l qhalf) (l.getD m Q.zero) := by
  cases l with
  | nil => simp at hlen
  | cons a rest =>
    simp only [interpolate]
    have hr : (a :: rest).length - 1 = 2 * m := by omega
    rw [hr, qfloor_half_mul_ofNat]
    have him : (2 * m) / 2 = m := by omega
    rw [him]
    simp only [Int.toNat_natCast]
    apply equiv_add_zero_num
    rw [Q.mul_num, frac_half_mul_even]
    ring

theorem interpolate_half_even (l : List Q) (k : Nat) (hk : 1 ≤ k)
    (hlen : l.length = 2 * k) :
    interpolate l qhalf =
      (l.getD (k - 1) Q.zero).add
        (qhalf.mul ((l.getD k Q.zero).sub (l.getD (k - 1) Q.zero))) := by
  cases l with
  | nil => simp at hlen; omega
  | cons a rest =>
    simp only [interpolate]
    have hr : (a :: rest).length - 1 = 2 * (k - 1) + 1 := by omega
    rw [hr, qfloor_half_mul_ofNat]
    have him : (2 * (k - 1) + 1) / 2 = k - 1 := by omega
    rw [him]
    simp only [Int.toNat_natCast]
    rw [frac_half_mul_odd]
    have hkk : k - 1 + 1 = k := by omega
    rw [hkk]
    rw [getD_default_irrel (a :: rest) k (by omega) _ Q.zero]

theorem pairwise_lt_head_le (a : Q) (rest : List Q)
    (h : List.Pairwise Q.lt (a :: rest)) :
    ∀ x ∈ a :: rest, Q.le a x := by
  intro x hx
  rcases List.mem_cons.mp hx with rfl | hx2
  · exact Q.le_refl x
  · exact Q.lt_imp_le (List.rel_of_pairwise_cons h hx2)

theorem countP_le_getD :
    ∀ (l : List Q), List.Pairwise Q.lt l → ∀ i < l.length,
      l.countP (fun s => decide (Q.le s (l.getD i Q.zero))) = i + 1 := by
  intro l
  induction l with
  | nil => intro _ i hi; simp at hi
  | cons a rest ih =>
    intro h i hi
    have ha := List.pairwise_cons.mp h
    cases i with
    | zero =>
      simp only [List.getD]
      rw [List.countP_cons]
      have hhead : decide (Q.le a ((a :: rest).getD 0 Q.zero)) = true := by
        simp [List.getD, Q.le_refl]
      have hrest : rest.countP (fun s => decide (Q.le s ((a :: rest).getD 0 Q.zero))) = 0 := by
        rw [List.countP_eq_zero]
        intro x hx
        simp only [List.getD, decide_eq_true_eq]
        intro hle
        exact absurd hle (Q.not_le_iff_lt.mpr (ha.1 x hx))
      simp only [List.getD] at hhead hrest ⊢
      rw [hrest, hhead]
      simp
    | succ j =>
      have hj : j < rest.length := by simpa using hi
      have hgd : (a :: rest).getD (j + 1) Q.zero = rest.getD j Q.zero := rfl
      rw [hgd, List.countP_cons]
      have hmem : rest.getD j Q.zero ∈ rest := by
        rw [List.getD_eq_getElem _ _ hj]
        exact List.getElem_mem hj
      have hhead : decide (Q.le a (rest.getD j Q.zero)) = true := by
        simp only [decide_eq_true_eq]
        exact Q.lt_imp_le (ha.1 _ hmem)
      rw [ih ha.2 j hj, hhead]
      simp

theorem countP_le_between :
    ∀ (l : List Q), List.Pairwise Q.lt l → ∀ (i : Nat) (t : Q), i + 1 < l.length →
      Q.lt (l.getD i Q.zero) t → Q.lt t (l.getD (i + 1) Q.zero) →
      l.countP (fun s => decide (Q.le s t)) = i + 1 := by
  intro l
  induction l with
  | nil => intro _ i t hi _ _; simp at hi
  | cons a rest ih =>
    intro h i t hi hlow hhigh
    have ha := List.pairwise_cons.mp h
    cases i with
    | zero =>
      rw [List.countP_cons]
      cases rest with
      | nil => simp at hi
      | cons b rest2 =>
        have hhead : decide (Q.le a t) = true := by
          simp only [decide_eq_true_eq]
          exact Q.lt_imp_le (by simpa [List.getD] using hlow)
        have hb : Q.lt t b := by simpa [List.getD] using hhigh
        have hrest : (b :: rest2).countP (fun s => decide (Q.le s t)) = 0 := by
          rw [List.countP_eq_zero]
          intro x hx
          simp only [decide_eq_true_eq]
          intro hle
          have hbx : Q.le b x := pairwise_lt_head_le b rest2 ha.2 x hx
          exact absurd hle (Q.not_le_iff_lt.mpr (Q.lt_of_lt_of_le hb hbx))
        rw [hrest, hhead]
        simp
    | succ j =>
      have hj : j + 1 < rest.length := by simpa using hi
      have hlow2 : Q.lt (rest.getD j Q.zero) t := hlow
      have hhigh2 : Q.lt t (rest.getD (j + 1) Q.zero) := hhigh
      rw [List.countP_cons]
      have hmem : rest.getD j Q.zero ∈ rest := by
        rw [List.getD_eq_getElem _ _ (by omega)]
        exact List.getElem_mem (by omega)
      have hhead : decide (Q.le a t) = true := by
        simp only [decide_eq_true_eq]
        exact Q.lt_imp_le (Q.lt_of_le_of_lt (Q.lt_imp_le (ha.1 _ hmem)) hlow2)
      rw [ih ha.2 j t hj hlow2 hhigh2, hhead]
      simp

theorem countP_ge_getD :
    ∀ (l : List Q), List.Pairwise Q.lt l → ∀ i < l.length,
      l.countP (fun s => decide (Q.le (l.getD i Q.zero) s)) = l.length - i := by
  intro l
  induction l with
  | nil => intro _ i hi; simp at hi
  | cons a rest ih =>
    intro h i hi
    have ha := List.pairwise_cons.mp h
    cases i with
    | zero =>
      have hA : (a :: rest).getD 0 Q.zero = a := rfl
      rw [hA, List.countP_cons]
      have hhead : decide (Q.le a a) = true := by
        simp [Q.le_refl]
      have hrest : rest.countP (fun s => decide (Q.le a s)) = rest.length := by
        rw [List.countP_eq_length]
        intro x hx
        simp only [decide_eq_true_eq]
        exact Q.lt_imp_le (ha.1 x hx)
      rw [hrest, hhead]
      simp
    | succ j =>
      have hj : j < rest.length := by simpa using hi
      have hgd : (a :: rest).getD (j + 1) Q.zero = rest.getD j Q.zero := rfl
      rw [hgd, List.countP_cons]
      have hmem : rest.getD j Q.zero ∈ rest := by
        rw [List.getD_eq_getElem _ _ hj]
        exact List.getElem_mem hj
      have hhead : decide (Q.le (rest.getD j Q.zero) a) = false := by
        simp only [decide_eq_false_iff_not]
        exact Q.not_le_iff_lt.mpr (ha.1 _ hmem)
      rw [ih ha.2 j hj, hhead]
      simp only [Bool.false_eq_true, if_false, List.length_cons]
      omega

theorem countP_ge_between :
    ∀ (l : List Q), List.Pairwise Q.lt l → ∀ (i : Nat) (t : Q), i + 1 < l.length →
      Q.lt (l.getD i Q.zero) t → Q.lt t (l.getD (i + 1) Q.zero) →
      l.countP (fun s => decide (Q.le t s)) = l.length - (i + 1) := by
  intro l
  induction l with
  | nil => intro _ i t hi _ _; simp at hi
  | cons a rest ih =>
    intro h i t hi hlow hhigh
    have ha := List.pairwise_cons.mp h
    cases i with
    | zero =>
      rw [List.countP_cons]
      cases rest with
      | nil => simp at hi
      | cons b rest2 =>
        have hhead : decide (Q.le t a) = false := by
          simp only [decide_eq_false_iff_not]
          exact Q.not_le_iff_lt.mpr (by simpa [List.getD] using hlow)
        have hb : Q.lt t b := by simpa [List.getD] using hhigh
        have hrest : (b :: rest2).countP (fun s => decide (Q.le t s)) =
            (b :: rest2).length := by
          rw [List.countP_eq_length]
          intro x hx
          simp only [decide_eq_true_eq]
          exact Q.lt_imp_le (Q.lt_of_lt_of_le hb (pairwise_lt_head_le b rest2 ha.2 x hx))
        rw [hrest, hhead]
        simp
    | succ j =>
      have hj : j + 1 < rest.length := by simpa using hi
      have hlow2 : Q.lt (rest.getD j Q.zero) t := hlow
      have hhigh2 : Q.lt t (rest.getD (j + 1) Q.zero) := hhigh
      rw [List.countP_cons]
      have hmem : rest.getD j Q.zero ∈ rest := by
        rw [List.getD_eq_getElem _ _ (by omega)]
        exact List.getElem_mem (by omega)
      have hhead : decide (Q.le t a) = false := by
        simp only [decide_eq_false_iff_not]
        exact Q.not_le_iff_lt.mpr
          (Q.lt_of_le_of_lt (Q.lt_imp_le (ha.1 _ hmem)) hlow2)
      rw [ih ha.2 j t hj hlow2 hhigh2, hhead]
      simp only [Bool.false_eq_true, if_false, List.length_cons]
      omega

theorem sortScores_perm (l : List Q) : (sortScores l).Perm l :=
  List.perm_insertionSort Q.le l

theorem sortScores_pairwise_lt (l : List Q) (h : List.Pairwise Q.vne l) :
    List.Pairwise Q.lt (sortScores l) := by
  letI : IsTotal Q Q.le := ⟨Q.le_total⟩
  letI : IsTrans Q Q.le := ⟨fun _ _ _ => Q.le_trans⟩
  have hsorted : List.Pairwise Q.le (sortScores l) :=
    List.sorted_insertionSort Q.le l
  have hsymm : ∀ {x y : Q}, Q.vne x y → Q.vne y x := fun h => h.symm
  have hvne : List.Pairwise Q.vne (sortScores l) :=
    (List.Perm.pairwise_iff hsymm (sortScores_perm l)).mpr h
  have := hsorted.and hvne
  exact this.imp (fun hab => by
    rcases hab.2 with hlt | hlt
    · exact hlt
    · exact absurd hab.1 (Q.not_le_iff_lt.mpr hlt))

theorem one_sub_qhalf : (Q.ofInt 1).sub qhalf = qhalf := by decide

theorem labels_countP (d : Dataset) (t : Q) (obj : Objective) (p : Q → Bool)
    (hp : ∀ s : Q, acceptScore obj t s = p s) :
    (d.labels t obj).countP id = d.scores.countP p := by
  unfold Dataset.labels
  rw [List.countP_map]
  apply List.countP_congr
  intro x _
  simp [hp x]

/-- C3: for every dataset whose scores are pairwise value-distinct, the
threshold at p = one half together with labels accepts exactly
floor(N/2) or ceil(N/2) records; a record is accepted iff its score is at
most the half-quantile (minimize) or at least it (maximize). -/
theorem C3_median_split (d : Dataset) (obj : Objective)
    (hd : List.Pairwise Q.vne d.scores) :
    ((d.labels (d.threshold qhalf obj) obj).countP id = d.size / 2 ∨
      (d.labels (d.threshold qhalf obj) obj).countP id = (d.size + 1) / 2) ∧
    (∀ r ∈ d.rows, (acceptScore obj (d.threshold qhalf obj) r.2 = true ↔
      (match obj with
       | Objective.minimize => Q.le r.2 (d.threshold qhalf obj)
       | Objective.maximize => Q.le (d.threshold qhalf obj) r.2))) := by
  constructor
  case right =>
    intro r _
    cases obj <;> simp [acceptScore]
  case left =>
    have hperm := sortScores_perm d.scores
    have hsl : List.Pairwise Q.lt (sortScores d.scores) :=
      sortScores_pairwise_lt d.scores hd
    have hlen : (sortScores d.scores).length = d.scores.length := hperm.length_eq
    have hsize : d.size = d.scores.length := by
      simp [Dataset.size, Dataset.scores]
    have hth : d.threshold qhalf obj = interpolate (sortScores d.scores) qhalf := by
      cases obj with
      | minimize => rfl
      | maximize =>
        unfold Dataset.threshold
        rw [one_sub_qhalf]
    rcases Nat.even_or_odd d.scores.length with ⟨k, hk⟩ | ⟨m, hm⟩
    · -- even length 2 * k
      rcases Nat.eq_zero_or_pos k with rfl | hk1
      · -- empty dataset
        left
        have h0 : d.scores.length = 0 := by omega
        have : d.labels (d.threshold qhalf obj) obj = [] := by
          unfold Dataset.labels
          rw [List.eq_nil_of_length_eq_zero h0]
          rfl
        rw [this]
        simp [hsize, h0]
      · have hlen2 : (sortScores d.scores).length = 2 * k := by omega
        have hkk : k - 1 + 1 = k := by omega
        have hlohi : Q.lt ((sortScores d.scores).getD (k - 1) Q.zero)
            ((sortScores d.scores).getD k Q.zero) := by
          have hik : k - 1 < (sortScores d.scores).length := by omega
          have hjk : k < (sortScores d.scores).length := by omega
          rw [List.getD_eq_getElem _ _ hik, List.getD_eq_getElem _ _ hjk]
          have := List.pairwise_iff_get.mp hsl ⟨k - 1, hik⟩ ⟨k, hjk⟩ (by simp; omega)
          simpa using this
        have hT := interpolate_half_even (sortScores d.scores) k hk1 hlen2
        have hmid := mid_between _ _ hlohi
        rw [← hT] at hmid
        left
        cases obj with
        | minimize =>
          have hc : (d.labels (d.threshold qhalf Objective.minimize)
              Objective.minimize).countP id =
              d.scores.countP
                (fun s => decide (Q.le s (d.threshold qhalf Objective.minimize))) :=
            labels_countP d _ _ _ (fun s => rfl)
          rw [hc, hperm.countP_eq _ |>.symm]
          rw [hth]
          rw [countP_le_between (sortScores d.scores) hsl (k - 1) _
            (by omega) (by rw [← hth]; exact hmid.1)
            (by rw [hkk, ← hth]; exact hmid.2)]
          omega
        | maximize =>
          have hc : (d.labels (d.threshold qhalf Objective.maximize)
              Objective.maximize).countP id =
              d.scores.countP
                (fun s => decide (Q.le (d.threshold qhalf Objective.maximize) s)) :=
            labels_countP d _ _ _ (fun s => rfl)
          rw [hc, hperm.countP_eq _ |>.symm]
          rw [hth]
          rw [countP_ge_between (sortScores d.scores) hsl (k - 1) _
            (by omega) (by rw [← hth]; exact hmid.1)
            (by rw [hkk, ← hth]; exact hmid.2)]
          omega
    · -- odd length 2 * m + 1
      have hlen2 : (sortScores d.scores).length = 2 * m + 1 := by omega
      have hequiv := interpolate_half_odd (sortScores d.scores) m hlen2
      rw [← hth] at hequiv
      right
      cases obj with
      | minimize =>
        have hc : (d.labels (d.threshold qhalf Objective.minimize)
            Objective.minimize).countP id =
            d.scores.countP
              (fun s => decide (Q.le s (d.threshold qhalf Objective.minimize))) :=
          labels_countP d _ _ _ (fun s => rfl)
        rw [hc, hperm.countP_eq _ |>.symm]
        have hcongr : List.countP
            (fun s => decide (Q.le s (d.threshold qhalf Objective.minimize)))
            (sortScores d.scores) =
            List.countP
              (fun s => decide (Q.le s ((sortScores d.scores).getD m Q.zero)))
              (sortScores d.scores) := by
          apply List.countP_congr
          intro x _
          simp only [decide_eq_true_eq]
          exact Q.le_congr_right hequiv
        rw [hcongr, countP_le_getD (sortScores d.scores) hsl m (by omega)]
        omega
      | maximize =>
        have hc : (d.labels (d.threshold qhalf Objective.maximize)
            Objective.maximize).countP id =
            d.scores.countP
              (fun s => decide (Q.le (d.threshold qhalf Objective.maximize) s)) :=
          labels_countP d _ _ _ (fun s => rfl)
        rw [hc, hperm.countP_eq _ |>.symm]
        have hcongr : List.countP
            (fun s => decide (Q.le (d.threshold qhalf Objective.maximize) s))
            (sortScores d.scores) =
            List.countP
              (fun s => decide (Q.le ((sortScores d.scores).getD m Q.zero) s))
              (sortScores d.scores) := by
          apply List.countP_congr
          intro x _
          simp only [decide_eq_true_eq]
          exact Q.le_congr_left hequiv
        rw [hcongr, countP_ge_getD (sortScores d.scores) hsl m (by omega)]
        omega

/-- Witness for C3: a concrete three-record dataset with distinct scores
accepts exactly two records under minimize. -/
theorem C3_median_split_witness :
    List.Pairwise Q.vne exDataset.scores ∧
      ((exDataset.labels (exDataset.threshold qhalf Objective.minimize)
          Objective.minimize).countP id = exDataset.size / 2 ∨
        (exDataset.labels (exDataset.threshold qhalf Objective.minimize)
          Objective.minimize).countP id = (exDataset.size + 1) / 2) :=
  ⟨by decide, (C3_median_split exDataset Objective.minimize (by decide)).1⟩
